import Mathlib

/-!
Verification development for `src/trailer.c` (commit-message trailer
extraction).  C strings are modelled as `List Char` holding the bytes of the
NUL-terminated string (the terminating NUL itself is the end of the list; a
well-formed C string has no interior NUL, so no list element represents NUL).
Byte-level classification (`isspace`, `isalnum`) is the ASCII/C-locale one.
All functions are executable; loops whose C counterpart walks a cursor are
written with an explicit fuel argument that the top-level wrappers instantiate
with a bound that the cursor can never exceed.
-/

abbrev Str := List Char

/-- COMMENT_LINE_CHAR from trailer.c. -/
def commentLineChar : Char := '#'

/-- TRAILER_SEPARATORS from trailer.c (the string ":"). -/
def trailerSeparators : Str := [':']

/-- C-locale `isspace`: space, \t, \n, \v, \f, \r. -/
def isSpaceC (c : Char) : Bool :=
  c = ' ' || c = '\t' || c = '\n' || c = '\x0b' || c = '\x0c' || c = '\r'

/-- C-locale `isalnum`. -/
def isAlnumC (c : Char) : Bool :=
  ('a' ≤ c && c ≤ 'z') || ('A' ≤ c && c ≤ 'Z') || ('0' ≤ c && c ≤ '9')

/-- Legal key character of the tokenizer: `isalnum(*p) || *p == '-'`. -/
def isKeyChar (c : Char) : Bool := isAlnumC c || c = '-'

/-- is_blank_line: skip spaces other than the line break; blank iff the line
ends (NUL) or breaks before any other byte. -/
def is_blank_line : Str → Bool
  | [] => true
  | c :: rest =>
    if c = '\n' then true
    else if isSpaceC c then is_blank_line rest
    else false

/-- Index of the first line break in a string, if any (strchr(s, 10)). -/
def nlIdx : Str → Option Nat
  | [] => none
  | c :: rest => if c = '\n' then some 0 else (nlIdx rest).map (· + 1)

/-- next_line as an offset transformer: the offset just past the first line
break at or after `i`, or the offset of the terminating NUL when the rest of
the string has no line break. -/
def nextLinePos (buf : Str) (i : Nat) : Nat :=
  match nlIdx (buf.drop i) with
  | some k => i + k + 1
  | none => buf.length

/-- last_line helper: scan indices i, i-1, ..., 0 for a line break, returning
the offset just after it, 0 when none is found. -/
def lastLineAux (buf : Str) : Nat → Nat
  | 0 => if buf.getD 0 ' ' = '\n' then 1 else 0
  | i + 1 => if buf.getD (i + 1) ' ' = '\n' then i + 2 else lastLineAux buf i

/-- last_line: the start offset of the last line of `buf[0..len)`, `none` for
the C function's -1 on an empty region.  The final byte is skipped so that a
region ending in a line break still reports that line. -/
def last_line (buf : Str) (len : Nat) : Option Nat :=
  if len = 0 then none
  else if len = 1 then some 0
  else some (lastLineAux buf (len - 2))

/-- find_separator: position of the separator in a line shaped
`<token><optional whitespace><separator>...`, `none` for the C function's -1.
The flags mirror the C locals: `wf` is whitespace_found, `first` tells whether
the scan still sits on the first byte (`c != line`). -/
def findSepAux (seps : Str) : Str → Bool → Bool → Nat → Option Nat
  | [], _, _, _ => none
  | c :: rest, wf, first, idx =>
    if seps.contains c then some idx
    else if !wf && isKeyChar c then findSepAux seps rest wf false (idx + 1)
    else if !first && (c = ' ' || c = '\t') then findSepAux seps rest true false (idx + 1)
    else none

/-- find_separator entry point. -/
def find_separator (line : Str) (seps : Str) : Option Nat :=
  findSepAux seps line false true 0

/-- The fixed table git_generated_prefixes from trailer.c. -/
def gitGeneratedMarkers : List Str :=
  [("Signed-off-by: ").toList, ("(cherry picked from commit ").toList]

/-- Line-start predicate: offset 0, or an offset just after a line break. -/
def isLineStart (buf : Str) (i : Nat) : Prop :=
  i = 0 ∨ (1 ≤ i ∧ buf.getD (i - 1) ' ' = '\n')

instance (buf : Str) (i : Nat) : Decidable (isLineStart buf i) := by
  unfold isLineStart; infer_instance

/-- find_patch_start loop: scan line by line from offset `i` while bytes
remain, returning the offset of the first line starting with "---", else the
offset of the NUL.  Fuel exceeds the number of iterations whenever it exceeds
`buf.length - i` (the cursor strictly grows). -/
def fpsAux (buf : Str) : Nat → Nat → Nat
  | 0, i => i
  | fuel + 1, i =>
    if i < buf.length then
      if ("---").toList.isPrefixOf (buf.drop i) then i
      else fpsAux buf fuel (nextLinePos buf i)
    else i

/-- find_patch_start: position of the start of the patch, or the length of the
message when it holds no patch. -/
def find_patch_start (buf : Str) : Nat :=
  fpsAux buf (buf.length + 1) 0

/-- memchr-based next_line of ignore_non_trailer: the offset just past the
first line break in `buf[bol..len)`, or `len` when that range has none. -/
def nextBolPos (buf : Str) (len bol : Nat) : Nat :=
  match nlIdx ((buf.drop bol).take (len - bol)) with
  | some k => bol + k + 1
  | none => len

/-- ignore_non_trailer loop.  `boc` is the C int local (0 doubles as "no run"),
`inConf` is in_old_conflicts_block.  cutoff never moves in this code, so the
final `len - cutoff` is `len - len`. -/
def ignoreAux (buf : Str) (len : Nat) : Nat → Nat → Nat → Bool → Nat
  | 0, _, boc, _ => if boc ≠ 0 then len - boc else len - len
  | fuel + 1, bol, boc, inConf =>
    if bol < len then
      let nl := nextBolPos buf len bol
      if buf.getD bol ' ' = commentLineChar || buf.getD bol ' ' = '\n' then
        ignoreAux buf len fuel nl (if boc = 0 then bol else boc) inConf
      else if ("Conflicts:\n").toList.isPrefixOf (buf.drop bol) then
        ignoreAux buf len fuel nl (if boc = 0 then bol else boc) true
      else if inConf && buf.getD bol ' ' = '\t' then
        ignoreAux buf len fuel nl boc inConf
      else if boc ≠ 0 then
        ignoreAux buf len fuel nl 0 false
      else
        ignoreAux buf len fuel nl boc inConf
    else if boc ≠ 0 then len - boc else len - len

/-- ignore_non_trailer: number of bytes to ignore from the tail of
`buf[0..len)`. -/
def ignore_non_trailer (buf : Str) (len : Nat) : Nat :=
  ignoreAux buf len (len + 1) 0 0 false

/-- Spec-side TrailingNoiseTrimmer: the same forward walk, but the tracked
run start is an `Option Nat` ("none" instead of the 0 sentinel), following the
spec's words: a comment line, an empty line, a "Conflicts:" marker line or an
indented pathname line inside a conflicts block extends (or starts) the run;
any other line resets the run to none. -/
def runTailLen (len : Nat) : Option Nat → Nat
  | some b => len - b
  | none => 0

def trimSpecAux (buf : Str) (len : Nat) : Nat → Nat → Option Nat → Bool → Nat
  | 0, _, run, _ => runTailLen len run
  | fuel + 1, bol, run, inConf =>
    if bol < len then
      let nl := nextBolPos buf len bol
      if buf.getD bol ' ' = commentLineChar || buf.getD bol ' ' = '\n' then
        trimSpecAux buf len fuel nl (some (run.getD bol)) inConf
      else if ("Conflicts:\n").toList.isPrefixOf (buf.drop bol) then
        trimSpecAux buf len fuel nl (some (run.getD bol)) true
      else if inConf && buf.getD bol ' ' = '\t' then
        trimSpecAux buf len fuel nl run inConf
      else
        trimSpecAux buf len fuel nl none false
    else runTailLen len run

/-- Spec-side trimmer entry point: length of the trailing ignorable run. -/
def trailingIgnorableLen (buf : Str) (len : Nat) : Nat :=
  trimSpecAux buf len (len + 1) 0 none false

/-- First line of the region is not itself ignorable-initial: not a comment,
not empty, not a "Conflicts:" marker. -/
def firstLineNotIgnorable (buf : Str) : Bool :=
  !(buf.headD ' ' = commentLineChar) && !(buf.headD ' ' = '\n') &&
    !(("Conflicts:\n").toList.isPrefixOf buf)

/-- Title scan of find_trailer_start: from the start, skip comment lines, stop
at the first blank line (or at the end of the region). -/
def eotAux (buf : Str) (len : Nat) : Nat → Nat → Nat
  | 0, s => s
  | fuel + 1, s =>
    if s < len then
      if buf.getD s ' ' = commentLineChar then eotAux buf len fuel (nextLinePos buf s)
      else if is_blank_line (buf.drop s) then s
      else eotAux buf len fuel (nextLinePos buf s)
    else s

/-- end_of_title of find_trailer_start. -/
def endOfTitle (buf : Str) (len : Nat) : Nat :=
  eotAux buf len (len + 1) 0

/-- State of the backward scan of find_trailer_start. -/
structure ScanSt where
  onlySpaces : Bool
  recognizedMarker : Bool
  trailerLines : Nat
  nonTrailerLines : Nat
  possibleContinuationLines : Nat
  deriving Repr, DecidableEq

/-- Initial scan state of find_trailer_start. -/
def scanInit : ScanSt := ⟨true, false, 0, 0, 0⟩

/-- Backward loop of find_trailer_start.  `l?` is the C int `l` (`none` for
-1); the loop body classifies the line at `l` exactly as the C does and the
loop exits (returning `len`) when `l` drops below `eot`. -/
def ftsScan (buf : Str) (len eot : Nat) : Nat → Option Nat → ScanSt → Nat
  | 0, _, _ => len
  | fuel + 1, l?, st =>
    match l? with
    | none => len
    | some l =>
      if l < eot then len
      else
        let bol := buf.drop l
        if bol.headD ' ' = commentLineChar then
          ftsScan buf len eot fuel (last_line buf l)
            { st with nonTrailerLines := st.nonTrailerLines + st.possibleContinuationLines,
                      possibleContinuationLines := 0 }
        else if is_blank_line bol then
          if st.onlySpaces then ftsScan buf len eot fuel (last_line buf l) st
          else
            let nt := st.nonTrailerLines + st.possibleContinuationLines
            if st.recognizedMarker && decide (nt ≤ st.trailerLines * 3) then nextLinePos buf l
            else if decide (0 < st.trailerLines) && decide (nt = 0) then nextLinePos buf l
            else len
        else
          let st := { st with onlySpaces := false }
          if gitGeneratedMarkers.any (fun p => p.isPrefixOf bol) then
            ftsScan buf len eot fuel (last_line buf l)
              { st with trailerLines := st.trailerLines + 1,
                        possibleContinuationLines := 0,
                        recognizedMarker := true }
          else
            let sepPos := find_separator bol trailerSeparators
            if decide (1 ≤ sepPos.getD 0) && !isSpaceC (bol.headD ' ') then
              -- the C's `if (recognized_prefix) continue;` just falls through
              -- to the next iteration either way
              ftsScan buf len eot fuel (last_line buf l)
                { st with trailerLines := st.trailerLines + 1,
                          possibleContinuationLines := 0 }
            else if isSpaceC (bol.headD ' ') then
              ftsScan buf len eot fuel (last_line buf l)
                { st with possibleContinuationLines := st.possibleContinuationLines + 1 }
            else
              ftsScan buf len eot fuel (last_line buf l)
                { st with nonTrailerLines := st.nonTrailerLines + 1 + st.possibleContinuationLines,
                          possibleContinuationLines := 0 }

/-- find_trailer_start: position of the first trailer line of `buf[0..len)`,
or `len` when the region has no trailers. -/
def find_trailer_start (buf : Str) (len : Nat) : Nat :=
  ftsScan buf len (endOfTitle buf len) (len + 1) (last_line buf len) scanInit

/-- The dual acceptance rule of the claim, applied to a scan state (pending
continuation lines folded into the non-trailer count, as the blank-line
decision does): (a) a recognized generated-prefix line was found and
trailerLines * 3 >= nonTrailerLines, or (b) some trailer line was found and
nonTrailerLines = 0. -/
def acceptCond (st : ScanSt) : Bool :=
  let nt := st.nonTrailerLines + st.possibleContinuationLines
  (st.recognizedMarker && decide (nt ≤ st.trailerLines * 3)) ||
    (decide (0 < st.trailerLines) && decide (nt = 0))

/-- Spec-side backward scan, following the claim's words: identical
classification, but the accept/reject decision is also taken when the scan
reaches titleEnd without meeting a qualifying blank line — in that case the
text after titleEnd is accepted when the dual rule holds. -/
def ftsScanSpec (buf : Str) (len eot : Nat) : Nat → Option Nat → ScanSt → Nat
  | 0, _, _ => len
  | fuel + 1, l?, st =>
    match l? with
    | none => if acceptCond st then eot else len
    | some l =>
      if l < eot then (if acceptCond st then eot else len)
      else
        let bol := buf.drop l
        if bol.headD ' ' = commentLineChar then
          ftsScanSpec buf len eot fuel (last_line buf l)
            { st with nonTrailerLines := st.nonTrailerLines + st.possibleContinuationLines,
                      possibleContinuationLines := 0 }
        else if is_blank_line bol then
          if st.onlySpaces then ftsScanSpec buf len eot fuel (last_line buf l) st
          else if acceptCond st then nextLinePos buf l
          else len
        else
          let st := { st with onlySpaces := false }
          if gitGeneratedMarkers.any (fun p => p.isPrefixOf bol) then
            ftsScanSpec buf len eot fuel (last_line buf l)
              { st with trailerLines := st.trailerLines + 1,
                        possibleContinuationLines := 0,
                        recognizedMarker := true }
          else
            let sepPos := find_separator bol trailerSeparators
            if decide (1 ≤ sepPos.getD 0) && !isSpaceC (bol.headD ' ') then
              ftsScanSpec buf len eot fuel (last_line buf l)
                { st with trailerLines := st.trailerLines + 1,
                          possibleContinuationLines := 0 }
            else if isSpaceC (bol.headD ' ') then
              ftsScanSpec buf len eot fuel (last_line buf l)
                { st with possibleContinuationLines := st.possibleContinuationLines + 1 }
            else
              ftsScanSpec buf len eot fuel (last_line buf l)
                { st with nonTrailerLines := st.nonTrailerLines + 1 + st.possibleContinuationLines,
                          possibleContinuationLines := 0 }

/-- Spec-side TrailerBlockLocator per the claim. -/
def findTrailerStartSpec (buf : Str) (len : Nat) : Nat :=
  ftsScanSpec buf len (endOfTitle buf len) (len + 1) (last_line buf len) scanInit

/-- find_trailer_end: position of the end of the trailers. -/
def find_trailer_end (buf : Str) (len : Nat) : Nat :=
  len - ignore_non_trailer buf len

/-- extract_trailer_block: copy of the byte range between trailer start and
trailer end (the C appends a NUL terminator, which is the end of the list
here). -/
def extract_trailer_block (message : Str) : Str :=
  let patchStart := find_patch_start message
  let trailerEnd := find_trailer_end message patchStart
  let trailerStart := find_trailer_start message trailerEnd
  (message.drop trailerStart).take (trailerEnd - trailerStart)

/-- States of the tokenizer (enum trailer_state). -/
inductive TokState where
  | start | key | keyWs | sepWs | value | valueNl | valueEnd | skipLine
  deriving Repr, DecidableEq

/-- Views the tokenizer has produced so far inside one call.
`kview` is the suffix of the block at `*key_out`; `keyAcc` the key bytes
consumed so far (the view the key NUL-termination would produce); `keyDone`
records whether a NUL was written ending the key (after which `keyAcc` is the
final key view); `vacc` the value bytes consumed since `*value_out`. -/
structure TokCtx where
  kview : Str
  keyAcc : Str
  keyDone : Bool
  vacc : Str
  deriving Repr, DecidableEq

/-- The key view a `return` would expose through `*key_out`: the bytes from
`key_out` up to the first NUL, i.e. `keyAcc` once the key was NUL-terminated,
else the whole suffix at `key_out` (terminated only by the block's NUL). -/
def curKey (ctx : TokCtx) : Str :=
  if ctx.keyDone then ctx.keyAcc else ctx.kview

/-- Result of one git_message_trailer_iterator_next call.  `iterover` is
GIT_ITEROVER; `noPair k` is a 0 return on which `*value_out` was never
written (`k` is what `*key_out` points at); `pair k v` is a 0 return with
both views written. -/
inductive TokResult where
  | iterover : TokResult
  | noPair : Str → TokResult
  | pair : Str → Str → TokResult
  deriving Repr, DecidableEq

/-- One iteration of the `while`/`switch` of git_message_trailer_iterator_next.
`.ret` models `goto ret`/return, `.step` a state change (the C's NEXT consumes
one byte — the tail is passed; GOTO keeps the cursor — the same list is
passed, with the one-byte lookahead of the target state resolved where the C
would otherwise loop without consuming). -/
inductive TokStepOut where
  | ret : TokResult → Str → TokStepOut
  | step : TokState → TokCtx → Str → TokStepOut

/-- Transition table of the tokenizer, mirroring the switch statement. -/
def tokStep (st : TokState) (ctx : TokCtx) (cs : Str) : TokStepOut :=
  match st with
  | .start =>
    match cs with
    | [] => .ret (.noPair (curKey ctx)) []
    | c :: rest => .step .key { ctx with kview := c :: rest, keyAcc := [], keyDone := false } (c :: rest)
  | .key =>
    match cs with
    | [] => .ret (.noPair (curKey ctx)) []
    | c :: rest =>
      if isKeyChar c then .step .key { ctx with keyAcc := ctx.keyAcc ++ [c] } rest
      else if c = ' ' || c = '\t' then .step .keyWs { ctx with keyDone := true } rest
      else if trailerSeparators.contains c then .step .sepWs { ctx with keyDone := true } rest
      else .step .skipLine ctx (c :: rest)
  | .keyWs =>
    match cs with
    | [] => .ret (.noPair (curKey ctx)) []
    | c :: rest =>
      if c = ' ' || c = '\t' then .step .keyWs ctx rest
      else if trailerSeparators.contains c then .step .sepWs ctx rest
      else .step .skipLine ctx (c :: rest)
  | .sepWs =>
    match cs with
    | [] => .ret (.noPair (curKey ctx)) []
    | c :: rest =>
      if c = ' ' || c = '\t' then .step .sepWs ctx rest
      else .step .value { ctx with vacc := [c] } rest
  | .value =>
    match cs with
    | [] => .step .valueEnd ctx []
    | c :: rest =>
      if c = '\n' then .step .valueNl { ctx with vacc := ctx.vacc ++ [c] } rest
      else .step .value { ctx with vacc := ctx.vacc ++ [c] } rest
  | .valueNl =>
    match cs with
    | [] => .step .valueEnd { ctx with vacc := ctx.vacc.dropLast } []
    | c :: rest =>
      if c = ' ' then .step .value { ctx with vacc := ctx.vacc ++ [c] } rest
      else .step .valueEnd { ctx with vacc := ctx.vacc.dropLast } (c :: rest)
  | .valueEnd => .ret (.pair (curKey ctx) ctx.vacc) cs
  | .skipLine =>
    match cs with
    | [] => .ret (.noPair (curKey ctx)) []
    | c :: rest =>
      if c = '\n' then .step .start ctx rest
      else .step .skipLine ctx rest

/-- The while loop of git_message_trailer_iterator_next.  Fuel bounds the
number of iterations; `2 * |cs| + 4` always suffices since every iteration
either consumes a byte or moves (at most twice in a row) to a state that
does. -/
def tokLoop : Nat → TokState → TokCtx → Str → TokResult × Str
  | 0, _, _, cs => (.noPair [], cs)
  | fuel + 1, st, ctx, cs =>
    match tokStep st ctx cs with
    | .ret r rest => (r, rest)
    | .step st' ctx' cs' => tokLoop fuel st' ctx' cs'

/-- git_message_trailer_iterator_next on the remaining block suffix: the
entry check returns GIT_ITEROVER at the terminator, otherwise the machine
runs from S_START.  Returns the result together with the remaining suffix the
iterator's cursor points at afterwards. -/
def nextTok (cs : Str) : TokResult × Str :=
  if cs.isEmpty then (.iterover, cs)
  else tokLoop (2 * cs.length + 4) .start ⟨[], [], false, []⟩ cs

/-- Repeated advance: collect the pairs the iterator emits until GIT_ITEROVER.
A 0 return without a value written contributes no pair.  Fuel `|block| + 1`
suffices: every 0 return leaves a strictly shorter suffix. -/
def emitAux : Nat → Str → List (Str × Str)
  | 0, _ => []
  | fuel + 1, cs =>
    match nextTok cs with
    | (.iterover, _) => []
    | (.noPair _, rest) => emitAux fuel rest
    | (.pair k v, rest) => (k, v) :: emitAux fuel rest

/-- Full pipeline: create the iterator (running the extraction) and advance
until exhaustion, returning the emitted (key, value) pairs in order. -/
def messageTrailerPairs (msg : Str) : List (Str × Str) :=
  let block := extract_trailer_block msg
  emitAux (block.length + 1) block

/-- Loop of git_message_trailers.  A nonzero return of the callback — and
GIT_ITEROVER from next — both jump to `ret`, which frees the iterator and
returns 0.  On a 0 return of next without a written value the C invokes the
callback on the uninitialized `value` local; that read is modelled as the
empty view. -/
def trailersAux (cb : Str → Str → Int) : Nat → Str → Int
  | 0, _ => 0
  | fuel + 1, cs =>
    match nextTok cs with
    | (.iterover, _) => 0
    | (.noPair k, rest) => if cb k [] ≠ 0 then 0 else trailersAux cb fuel rest
    | (.pair k v, rest) => if cb k v ≠ 0 then 0 else trailersAux cb fuel rest

/-- git_message_trailers: create an iterator, run the callback over the
sequence, free the iterator, return. -/
def git_message_trailers (msg : Str) (cb : Str → Str → Int) : Int :=
  let block := extract_trailer_block msg
  trailersAux cb (block.length + 1) block

/-- Iterator object of the façade (trailer_iterator): the owned block buffer,
its length, and the cursor. -/
structure TrailerIterator where
  trailerBlock : Str
  blockLen : Nat
  ptrOffset : Nat
  deriving Repr, DecidableEq

/-- Deallocation events of git_message_trailer_iterator_free. -/
inductive FreeAction where
  | freeBlock : Str → FreeAction
  | freeIter : FreeAction
  deriving Repr, DecidableEq

/-- git_message_trailer_iterator_free: a NULL handle returns at once without
freeing anything; otherwise the block buffer and then the iterator struct are
released. -/
def git_message_trailer_iterator_free : Option TrailerIterator → List FreeAction
  | none => []
  | some iter => [.freeBlock iter.trailerBlock, .freeIter]

/-! Theorems. -/

/-- C2 counterexample: for the message "Subject\n\nKey: val\nNotATrailerLine\nOther: v2\n"
the pipeline does not emit the two pairs (Key, val), (Other, v2) the claim
states. -/
theorem c2_counterexample :
    messageTrailerPairs ("Subject\n\nKey: val\nNotATrailerLine\nOther: v2\n").toList ≠
      [(("Key").toList, ("val").toList), (("Other").toList, ("v2").toList)] := by
  decide

/-- C2 amended: for that message the pipeline emits no pair at all — the
trailing paragraph holds a non-trailer line and no recognized generated
prefix, so the locator rejects it and the block is empty. -/
theorem c2_amended :
    messageTrailerPairs ("Subject\n\nKey: val\nNotATrailerLine\nOther: v2\n").toList = [] := by
  decide

/-- C7 counterexample: for "Subject\n\nKey:\n" a pair is emitted, but no pair
of the whole sequence carries an empty value — the claim's empty-string value
never appears. -/
theorem c7_counterexample :
    messageTrailerPairs ("Subject\n\nKey:\n").toList ≠ [] ∧
      (messageTrailerPairs ("Subject\n\nKey:\n").toList).all (fun p => !p.2.isEmpty) = true := by
  constructor
  · decide
  · decide

/-- C7 amended: for the message "Subject\n\nKey:\n" the single emitted pair is
(Key, "\n") — S_SEP_WS marks the value start at the first byte that is not a
space or tab, which here is the line break itself, so the value is the
line-break byte rather than the empty string. -/
theorem c7_amended :
    messageTrailerPairs ("Subject\n\nKey:\n").toList = [(("Key").toList, ['\n'])] := by
  decide

/-- C4 counterexample: for "Subject\n\n :v\nSigned-off-by: A <a@x>\n" the first
emitted pair has the empty key — the continuation-looking line " :v" reaches
S_KEY on a space, which NUL-terminates a zero-length key and still goes on to
emit a pair. -/
theorem c4_counterexample :
    ([], ['v']) ∈ messageTrailerPairs ("Subject\n\n :v\nSigned-off-by: A <a@x>\n").toList := by
  decide

/-- C5 (code bug): on "Subject\n\nSigned-off-by: A <a@x>\nnot a trailer\n" the
second advance call returns 0 (success) with the value view never written —
neither a pair nor GIT_ITEROVER — because the trailing malformed line runs the
machine into the terminator, and `goto ret` returns rc = 0. -/
theorem c5_advance_returns_success_without_pair :
    nextTok (nextTok (extract_trailer_block
        ("Subject\n\nSigned-off-by: A <a@x>\nnot a trailer\n").toList)).2 =
      (.noPair (("not").toList), []) := by
  decide

/-- C6 (code bug): with a callback that immediately stops iteration by
returning 1, git_message_trailers on "Subject\n\nKey: val\nOther: v2\n" returns
0, not the callback's terminating signal — the `ret` label discards rc. -/
theorem c6_foreach_drops_callback_signal :
    git_message_trailers ("Subject\n\nKey: val\nOther: v2\n").toList (fun _ _ => 1) = 0 := by
  decide

/-- C3 counterexample: for "Subject\n\nKey: val\n" the extracted trailer block
is "Key: val\n", and feeding it back as a fresh message yields the empty pair
sequence (the block is the whole first paragraph — the title — of the re-fed
message), not the original one-pair sequence. -/
theorem c3_counterexample :
    messageTrailerPairs (extract_trailer_block ("Subject\n\nKey: val\n").toList) ≠
      messageTrailerPairs ("Subject\n\nKey: val\n").toList := by
  decide

/-- C10: disposing a NULL iterator handle performs no deallocation at all, and
a non-NULL handle always frees; the free list is empty exactly for the NULL
handle. -/
theorem iterator_free_null_noop (iter : Option TrailerIterator) :
    git_message_trailer_iterator_free iter = [] ↔ iter = none := by
  cases iter with
  | none => simp [git_message_trailer_iterator_free]
  | some it => simp [git_message_trailer_iterator_free]

/-- C8 counterexample: the region "#\n" is a single trailing comment line
(maximal trailing ignorable run of length 2), yet ignore_non_trailer returns
0 — the run starts at offset 0 and the 0 sentinel of `boc` conflates that
with "no run". -/
theorem c8_counterexample :
    ignore_non_trailer (("#\n").toList) 2 ≠ trailingIgnorableLen (("#\n").toList) 2 := by
  decide

/-- C3 amended: re-extraction is idempotent for messages whose extracted
trailer block is empty (both runs emit the empty sequence).  In general the
property fails: a non-empty block fed back as a fresh message forms the
message's first paragraph — the title, which can never be trailers — so the
second run emits nothing. -/
theorem c3_amended (msg : Str) (h : extract_trailer_block msg = []) :
    messageTrailerPairs (extract_trailer_block msg) = messageTrailerPairs msg := by
  simp only [messageTrailerPairs, h]
  decide

/-- C3 witness: "Hello\n" has an empty trailer block, and both runs agree. -/
theorem c3_witness :
    messageTrailerPairs (extract_trailer_block ("Hello\n").toList) =
      messageTrailerPairs ("Hello\n").toList :=
  c3_amended (("Hello\n").toList) (by decide)

/-- Keys of pairs the tokenizer loop emits consist of key characters: the key
bytes are only ever accumulated in S_KEY under the `isalnum || '-'` guard, and
a pair is only emitted after the key was NUL-terminated. -/
theorem tokLoop_pair_key_chars :
    ∀ (fuel : Nat) (st : TokState) (ctx : TokCtx) (cs k v rest : Str),
      tokLoop fuel st ctx cs = (.pair k v, rest) →
      (∀ c ∈ ctx.keyAcc, isKeyChar c = true) →
      ((st = .keyWs ∨ st = .sepWs ∨ st = .value ∨ st = .valueNl ∨ st = .valueEnd) →
        ctx.keyDone = true) →
      ∀ c ∈ k, isKeyChar c = true := by
  intro fuel
  induction fuel with
  | zero =>
    intro st ctx cs k v rest h
    simp [tokLoop] at h
  | succ n ih =>
    intro st ctx cs k v rest h hkey hdone
    rw [tokLoop] at h
    cases st with
    | start =>
      cases cs with
      | nil => simp [tokStep] at h
      | cons c cs' =>
        simp only [tokStep] at h
        exact ih _ _ _ _ _ _ h (by simp)
          (by intro hc; rcases hc with h' | h' | h' | h' | h' <;> simp at h')
    | key =>
      cases cs with
      | nil => simp [tokStep] at h
      | cons c cs' =>
        by_cases h1 : isKeyChar c = true
        · simp only [tokStep, h1, if_true] at h
          refine ih _ _ _ _ _ _ h ?_
            (by intro hc; rcases hc with h' | h' | h' | h' | h' <;> simp at h')
          intro x hx
          rcases List.mem_append.mp hx with hx | hx
          · exact hkey x hx
          · rw [List.mem_singleton.mp hx]; exact h1
        · by_cases h2 : (c = ' ' || c = '\t') = true
          · simp only [tokStep, h1, h2, if_true, if_false, Bool.false_eq_true] at h
            exact ih _ _ _ _ _ _ h hkey (by intro _; rfl)
          · by_cases h3 : trailerSeparators.contains c = true
            · simp only [tokStep, h1, h2, h3, if_true, if_false, Bool.false_eq_true] at h
              exact ih _ _ _ _ _ _ h hkey (by intro _; rfl)
            · simp only [tokStep, h1, h2, h3, if_false, Bool.false_eq_true] at h
              exact ih _ _ _ _ _ _ h hkey
                (by intro hc; rcases hc with h' | h' | h' | h' | h' <;> simp at h')
    | keyWs =>
      cases cs with
      | nil => simp [tokStep] at h
      | cons c cs' =>
        by_cases h2 : (c = ' ' || c = '\t') = true
        · simp only [tokStep, h2, if_true] at h
          exact ih _ _ _ _ _ _ h hkey (by intro _; exact hdone (Or.inl rfl))
        · by_cases h3 : trailerSeparators.contains c = true
          · simp only [tokStep, h2, h3, if_true, if_false, Bool.false_eq_true] at h
            exact ih _ _ _ _ _ _ h hkey (by intro _; exact hdone (Or.inl rfl))
          · simp only [tokStep, h2, h3, if_false, Bool.false_eq_true] at h
            exact ih _ _ _ _ _ _ h hkey
              (by intro hc; rcases hc with h' | h' | h' | h' | h' <;> simp at h')
    | sepWs =>
      cases cs with
      | nil => simp [tokStep] at h
      | cons c cs' =>
        by_cases h2 : (c = ' ' || c = '\t') = true
        · simp only [tokStep, h2, if_true] at h
          exact ih _ _ _ _ _ _ h hkey (by intro _; exact hdone (Or.inr (Or.inl rfl)))
        · simp only [tokStep, h2, if_false, Bool.false_eq_true] at h
          exact ih _ _ _ _ _ _ h hkey (by intro _; exact hdone (Or.inr (Or.inl rfl)))
    | value =>
      cases cs with
      | nil =>
        simp only [tokStep] at h
        exact ih _ _ _ _ _ _ h hkey (by intro _; exact hdone (Or.inr (Or.inr (Or.inl rfl))))
      | cons c cs' =>
        by_cases h2 : c = '\n'
        · simp [tokStep, h2] at h
          exact ih _ _ _ _ _ _ h hkey (by intro _; exact hdone (Or.inr (Or.inr (Or.inl rfl))))
        · simp [tokStep, h2] at h
          exact ih _ _ _ _ _ _ h hkey (by intro _; exact hdone (Or.inr (Or.inr (Or.inl rfl))))
    | valueNl =>
      cases cs with
      | nil =>
        simp only [tokStep] at h
        exact ih _ _ _ _ _ _ h hkey
          (by intro _; exact hdone (Or.inr (Or.inr (Or.inr (Or.inl rfl)))))
      | cons c cs' =>
        by_cases h2 : c = ' '
        · simp [tokStep, h2] at h
          exact ih _ _ _ _ _ _ h hkey
            (by intro _; exact hdone (Or.inr (Or.inr (Or.inr (Or.inl rfl)))))
        · simp [tokStep, h2] at h
          exact ih _ _ _ _ _ _ h hkey
            (by intro _; exact hdone (Or.inr (Or.inr (Or.inr (Or.inl rfl)))))
    | valueEnd =>
      simp only [tokStep] at h
      injection h with h1 h2
      injection h1 with hk hv
      subst hk
      have hd : ctx.keyDone = true := hdone (Or.inr (Or.inr (Or.inr (Or.inr rfl))))
      simpa [curKey, hd] using hkey
    | skipLine =>
      cases cs with
      | nil => simp [tokStep] at h
      | cons c cs' =>
        by_cases h2 : c = '\n'
        · simp [tokStep, h2] at h
          exact ih _ _ _ _ _ _ h hkey
            (by intro hc; rcases hc with h' | h' | h' | h' | h' <;> simp at h')
        · simp [tokStep, h2] at h
          exact ih _ _ _ _ _ _ h hkey
            (by intro hc; rcases hc with h' | h' | h' | h' | h' <;> simp at h')

/-- Keys of pairs emitted by a single advance call consist of key
characters. -/
theorem nextTok_pair_key_chars (cs k v rest : Str)
    (h : nextTok cs = (.pair k v, rest)) : ∀ c ∈ k, isKeyChar c = true := by
  unfold nextTok at h
  split at h
  · simp at h
  · exact tokLoop_pair_key_chars _ _ _ _ _ _ _ h (by simp)
      (by intro hc; rcases hc with h' | h' | h' | h' | h' <;> simp at h')

/-- Keys of pairs collected by repeated advance consist of key characters. -/
theorem emitAux_key_chars :
    ∀ (fuel : Nat) (cs k v : Str), (k, v) ∈ emitAux fuel cs →
      ∀ c ∈ k, isKeyChar c = true := by
  intro fuel
  induction fuel with
  | zero => intro cs k v h; simp [emitAux] at h
  | succ n ih =>
    intro cs k v h
    rw [emitAux] at h
    rcases hnt : nextTok cs with ⟨res, rest⟩
    rw [hnt] at h
    match res, h with
    | .iterover, h => simp at h
    | .noPair k', h => exact ih _ _ _ h
    | .pair k' v', h =>
      rcases List.mem_cons.mp h with h' | h'
      · obtain ⟨hk, hv⟩ := Prod.mk.injEq .. ▸ h'
        subst hk
        exact nextTok_pair_key_chars _ _ _ _ hnt
      · exact ih _ _ _ h'

/-- C4 amended: every emitted key is a (possibly empty) run of alphanumeric
and hyphen bytes.  The original claim's non-emptiness fails: a block line
beginning with a space, tab or separator byte NUL-terminates a zero-length
key and can still emit a pair (see the counterexample). -/
theorem c4_amended (msg k v : Str) (h : (k, v) ∈ messageTrailerPairs msg) :
    ∀ c ∈ k, isKeyChar c = true := by
  unfold messageTrailerPairs at h
  exact emitAux_key_chars _ _ _ _ h

/-- C4 witness: the pair (Key, val) is emitted for "Subject\n\nKey: val\n" and
the theorem yields that 'K' is a key character. -/
theorem c4_witness : isKeyChar 'K' = true :=
  c4_amended (("Subject\n\nKey: val\n").toList) (("Key").toList) (("val").toList)
    (by decide) 'K' (by decide)

/-- getD through drop. -/
theorem getD_drop (buf : Str) (i k : Nat) (d : Char) :
    (buf.drop i).getD k d = buf.getD (i + k) d := by
  rw [List.getD_eq_getElem?_getD, List.getD_eq_getElem?_getD, List.getElem?_drop]

/-- A found line break is inside the string. -/
theorem nlIdx_lt : ∀ (s : Str) (k : Nat), nlIdx s = some k → k < s.length := by
  intro s
  induction s with
  | nil => intro k h; simp [nlIdx] at h
  | cons c rest ih =>
    intro k h
    rw [nlIdx] at h
    by_cases hc : c = '\n'
    · simp only [hc, if_true, Option.some.injEq] at h
      simp only [List.length_cons]
      omega
    · simp only [hc, if_false, Option.map_eq_some'] at h
      obtain ⟨k', hk', hkk⟩ := h
      have := ih k' hk'
      simp only [List.length_cons]
      omega

/-- The found index holds a line break. -/
theorem nlIdx_nl : ∀ (s : Str) (k : Nat), nlIdx s = some k → s.getD k ' ' = '\n' := by
  intro s
  induction s with
  | nil => intro k h; simp [nlIdx] at h
  | cons c rest ih =>
    intro k h
    rw [nlIdx] at h
    by_cases hc : c = '\n'
    · simp only [hc, if_true, Option.some.injEq] at h
      rw [← h, List.getD_cons_zero, hc]
    · simp only [hc, if_false, Option.map_eq_some'] at h
      obtain ⟨k', hk', hkk⟩ := h
      rw [← hkk, List.getD_cons_succ]
      exact ih k' hk'

/-- The found index is the least line-break index. -/
theorem nlIdx_min : ∀ (s : Str) (k : Nat), nlIdx s = some k →
    ∀ j, s.getD j ' ' = '\n' → k ≤ j := by
  intro s
  induction s with
  | nil => intro k h; simp [nlIdx] at h
  | cons c rest ih =>
    intro k h j hj
    rw [nlIdx] at h
    by_cases hc : c = '\n'
    · simp only [hc, if_true, Option.some.injEq] at h
      omega
    · simp only [hc, if_false, Option.map_eq_some'] at h
      obtain ⟨k', hk', hkk⟩ := h
      cases j with
      | zero => rw [List.getD_cons_zero] at hj; exact absurd hj hc
      | succ j' =>
        rw [List.getD_cons_succ] at hj
        have := ih k' hk' j' hj
        omega

/-- No line break when none is found. -/
theorem nlIdx_none : ∀ (s : Str), nlIdx s = none → ∀ j, s.getD j ' ' ≠ '\n' := by
  intro s
  induction s with
  | nil =>
    intro _ j
    rw [List.getD_eq_default _ _ (by simp)]
    decide
  | cons c rest ih =>
    intro h j
    rw [nlIdx] at h
    by_cases hc : c = '\n'
    · simp [hc] at h
    · simp only [hc, if_false, Option.map_eq_none'] at h
      cases j with
      | zero => rw [List.getD_cons_zero]; exact hc
      | succ j' => rw [List.getD_cons_succ]; exact ih h j'

/-- next_line strictly advances inside the string. -/
theorem nextLinePos_gt (buf : Str) (i : Nat) (h : i < buf.length) :
    i < nextLinePos buf i := by
  rcases hn : nlIdx (buf.drop i) with _ | k
  · simp only [nextLinePos, hn]
    exact h
  · simp only [nextLinePos, hn]
    omega

/-- next_line never passes the NUL. -/
theorem nextLinePos_le (buf : Str) (i : Nat) : nextLinePos buf i ≤ buf.length := by
  rcases hn : nlIdx (buf.drop i) with _ | k
  · simp [nextLinePos, hn]
  · simp only [nextLinePos, hn]
    have := nlIdx_lt _ _ hn
    rw [List.length_drop] at this
    omega

/-- next_line lands on a line start or on the NUL. -/
theorem nextLinePos_lineStart (buf : Str) (i : Nat) :
    isLineStart buf (nextLinePos buf i) ∨ nextLinePos buf i = buf.length := by
  rcases hn : nlIdx (buf.drop i) with _ | k
  · simp [nextLinePos, hn]
  · simp only [nextLinePos, hn]
    left
    right
    constructor
    · omega
    · have := nlIdx_nl _ _ hn
      rw [getD_drop] at this
      simpa using this

/-- next_line skips no line start: any line start after `i` is at or past the
next line position. -/
theorem lineStart_ge_nextLinePos (buf : Str) (i o : Nat)
    (ho : isLineStart buf o) (hio : i < o) :
    nextLinePos buf i ≤ o := by
  rcases ho with h0 | ⟨h1, hnl⟩
  · omega
  · have heq : i + (o - 1 - i) = o - 1 := by omega
    rcases hn : nlIdx (buf.drop i) with _ | k
    · exfalso
      have hno := nlIdx_none _ hn (o - 1 - i)
      rw [getD_drop, heq] at hno
      exact hno hnl
    · have hmin := nlIdx_min _ _ hn (o - 1 - i) (by rw [getD_drop, heq]; exact hnl)
      simp only [nextLinePos, hn]
      omega

/-- A line carrying the patch marker lies inside the message. -/
theorem prefixAt_lt_length (buf : Str) (o : Nat)
    (h : ("---").toList.isPrefixOf (buf.drop o) = true) : o < buf.length := by
  rw [List.isPrefixOf_iff_prefix] at h
  have hlen := h.length_le
  have h3 : (("---").toList).length = 3 := by decide
  rw [h3, List.length_drop] at hlen
  omega

/-- Characterization of the find_patch_start loop from a line start: the
result stays in range, qualifies (or is the length), and sits at or before
every qualifying line start at or after the cursor. -/
theorem fpsAux_spec (buf : Str) : ∀ (fuel i : Nat),
    buf.length - i < fuel → (isLineStart buf i ∨ i = buf.length) →
    fpsAux buf fuel i ≤ buf.length ∧
    (fpsAux buf fuel i = buf.length ∨
      (isLineStart buf (fpsAux buf fuel i) ∧
        ("---").toList.isPrefixOf (buf.drop (fpsAux buf fuel i)) = true)) ∧
    ∀ o, isLineStart buf o → ("---").toList.isPrefixOf (buf.drop o) = true →
      i ≤ o → fpsAux buf fuel i ≤ o := by
  intro fuel
  induction fuel with
  | zero => intro i hf _; exact absurd hf (by omega)
  | succ n ih =>
    intro i hf hi
    rw [fpsAux]
    by_cases hlt : i < buf.length
    · by_cases hp : ("---").toList.isPrefixOf (buf.drop i) = true
      · rw [if_pos hlt, if_pos hp]
        refine ⟨le_of_lt hlt, Or.inr ⟨?_, hp⟩, fun o _ _ hio => hio⟩
        rcases hi with h | h
        · exact h
        · omega
      · rw [if_pos hlt, if_neg hp]
        have hgt : i < nextLinePos buf i := nextLinePos_gt buf i hlt
        have hle : nextLinePos buf i ≤ buf.length := nextLinePos_le buf i
        have hf' : buf.length - nextLinePos buf i < n := by omega
        have hls : isLineStart buf (nextLinePos buf i) ∨ nextLinePos buf i = buf.length :=
          nextLinePos_lineStart buf i
        obtain ⟨ihA, ihB, ihC⟩ := ih (nextLinePos buf i) hf' hls
        refine ⟨ihA, ihB, ?_⟩
        intro o ho hpo hio
        have hne : o ≠ i := fun he => hp (he ▸ hpo)
        have hnext : nextLinePos buf i ≤ o :=
          lineStart_ge_nextLinePos buf i o ho (by omega)
        exact ihC o ho hpo hnext
    · rw [if_neg hlt]
      have hieq : i = buf.length := by
        rcases hi with h | h
        · rcases h with h0 | ⟨h1, hnl⟩
          · omega
          · have : i - 1 < buf.length := by
              by_contra hge
              rw [List.getD_eq_default _ _ (by omega)] at hnl
              exact absurd hnl (by decide)
            omega
        · exact h
      refine ⟨le_of_eq hieq, Or.inl hieq, ?_⟩
      intro o ho hpo hio
      have := prefixAt_lt_length buf o hpo
      omega

/-- C9: find_patch_start returns the byte offset of the first line whose
content begins with "---", and the full message length when no such line
exists — the result never exceeds the length, qualifies as such a line start
unless it equals the length, and sits at or before every line start whose
content begins with "---". -/
theorem find_patch_start_first_patch_line (buf : Str) :
    find_patch_start buf ≤ buf.length ∧
    (find_patch_start buf = buf.length ∨
      (isLineStart buf (find_patch_start buf) ∧
        ("---").toList.isPrefixOf (buf.drop (find_patch_start buf)) = true)) ∧
    ∀ o, isLineStart buf o → ("---").toList.isPrefixOf (buf.drop o) = true →
      find_patch_start buf ≤ o := by
  have h := fpsAux_spec buf (buf.length + 1) 0 (by omega) (Or.inl (Or.inl rfl))
  unfold find_patch_start
  exact ⟨h.1, h.2.1, fun o ho hp => h.2.2 o ho hp (Nat.zero_le o)⟩

/-- C9 witness: on "a\n---x\n" the line start at offset 2 carries the patch
marker, and the theorem bounds find_patch_start by it. -/
theorem c9_witness : find_patch_start (("a\n---x\n").toList) ≤ 2 :=
  (find_patch_start_first_patch_line (("a\n---x\n").toList)).2.2 2 (by decide) (by decide)

/-- The memchr-based next line position is positive for a line inside the
region. -/
theorem nextBolPos_pos (buf : Str) (len bol : Nat) (h : bol < len) :
    0 < nextBolPos buf len bol := by
  rcases hn : nlIdx ((buf.drop bol).take (len - bol)) with _ | k
  · simp only [nextBolPos, hn]
    omega
  · simp only [nextBolPos, hn]
    omega

/-- headD as getD at 0. -/
theorem headD_eq_getD (buf : Str) (d : Char) : buf.headD d = buf.getD 0 d := by
  cases buf <;> simp

/-- The trimming loops of ignore_non_trailer and the spec-side trimmer agree
from any line after the first, under the relation that ties the 0 sentinel of
`boc` to the `none` of the tracked run.  `0 < bol` keeps a fresh run start
from colliding with the sentinel. -/
theorem ignoreAux_eq_trimSpec (buf : Str) (len : Nat) :
    ∀ (fuel bol boc : Nat) (inConf : Bool) (run : Option Nat) (inConfS : Bool),
      0 < bol →
      ((boc = 0 ∧ run = none ∧ inConf = false ∧ inConfS = false) ∨
        (boc ≠ 0 ∧ run = some boc ∧ inConfS = inConf)) →
      ignoreAux buf len fuel bol boc inConf = trimSpecAux buf len fuel bol run inConfS := by
  intro fuel
  induction fuel with
  | zero =>
    intro bol boc inConf run inConfS hbol hrel
    rcases hrel with ⟨h1, h2, _, _⟩ | ⟨h1, h2, _⟩
    · subst h1; subst h2; simp [ignoreAux, trimSpecAux, runTailLen]
    · subst h2; simp [ignoreAux, trimSpecAux, runTailLen, h1]
  | succ n ih =>
    intro bol boc inConf run inConfS hbol hrel
    rw [ignoreAux, trimSpecAux]
    by_cases hb : bol < len
    · rw [if_pos hb, if_pos hb]
      have hnl : 0 < nextBolPos buf len bol := nextBolPos_pos buf len bol hb
      rcases hrel with ⟨h1, h2, h3, h4⟩ | ⟨h1, h2, h3⟩
      · subst h1; subst h2; subst h3; subst h4
        by_cases hc1 : (buf.getD bol ' ' = commentLineChar || buf.getD bol ' ' = '\n') = true
        · rw [if_pos hc1, if_pos hc1]
          exact ih _ _ _ _ _ hnl (Or.inr ⟨by simp; omega, by simp, rfl⟩)
        · rw [if_neg hc1, if_neg hc1]
          by_cases hc2 : ("Conflicts:\n").toList.isPrefixOf (buf.drop bol) = true
          · rw [if_pos hc2, if_pos hc2]
            exact ih _ _ _ _ _ hnl (Or.inr ⟨by simp; omega, by simp, rfl⟩)
          · rw [if_neg hc2, if_neg hc2]
            simp only [Bool.false_and, Bool.false_eq_true, if_false]
            rw [if_neg (by simp)]
            exact ih _ _ _ _ _ hnl (Or.inl ⟨rfl, rfl, rfl, rfl⟩)
      · subst h2
        rw [h3]
        by_cases hc1 : (buf.getD bol ' ' = commentLineChar || buf.getD bol ' ' = '\n') = true
        · rw [if_pos hc1, if_pos hc1]
          rw [if_neg h1]
          exact ih _ _ _ _ _ hnl (Or.inr ⟨h1, by simp, rfl⟩)
        · rw [if_neg hc1, if_neg hc1]
          by_cases hc2 : ("Conflicts:\n").toList.isPrefixOf (buf.drop bol) = true
          · rw [if_pos hc2, if_pos hc2]
            rw [if_neg h1]
            exact ih _ _ _ _ _ hnl (Or.inr ⟨h1, by simp, rfl⟩)
          · rw [if_neg hc2, if_neg hc2]
            by_cases hc3 : (inConf && buf.getD bol ' ' = '\t') = true
            · rw [if_pos hc3, if_pos hc3]
              exact ih _ _ _ _ _ hnl (Or.inr ⟨h1, rfl, rfl⟩)
            · rw [if_neg hc3, if_neg hc3]
              rw [if_pos h1]
              exact ih _ _ _ _ _ hnl (Or.inl ⟨rfl, rfl, rfl, rfl⟩)
    · rw [if_neg hb, if_neg hb]
      rcases hrel with ⟨h1, h2, _, _⟩ | ⟨h1, h2, _⟩
      · subst h1; subst h2; simp [runTailLen]
      · subst h2; simp [runTailLen, h1]

/-- First iteration of both trimming loops on a region whose first line is
not ignorable: both fall through to the plain-line case and continue in the
related states. -/
theorem ignoreAux_first_step (buf : Str) (len : Nat)
    (h : firstLineNotIgnorable buf = true) :
    ∀ fuel, ignoreAux buf len (fuel + 1) 0 0 false = trimSpecAux buf len (fuel + 1) 0 none false := by
  intro fuel
  rw [ignoreAux, trimSpecAux]
  by_cases hb : 0 < len
  · rw [if_pos hb, if_pos hb]
    unfold firstLineNotIgnorable at h
    simp only [headD_eq_getD, Bool.and_eq_true, Bool.not_eq_true',
      decide_eq_false_iff_not] at h
    obtain ⟨⟨h1, h2⟩, h3⟩ := h
    have hc1 : ¬ ((buf.getD 0 ' ' = commentLineChar || buf.getD 0 ' ' = '\n') = true) := by
      simp only [Bool.or_eq_true, decide_eq_true_eq]
      rintro (hx | hx)
      · exact h1 hx
      · exact h2 hx
    have hc2 : ¬ (("Conflicts:\n").toList.isPrefixOf (buf.drop 0) = true) := by
      rw [List.drop_zero]
      intro hx
      rw [h3] at hx
      exact absurd hx (by simp)
    rw [if_neg hc1, if_neg hc1, if_neg hc2, if_neg hc2]
    rw [if_neg (by simp), if_neg (by simp), if_neg (by simp)]
    exact ignoreAux_eq_trimSpec buf len fuel _ 0 false none false
      (nextBolPos_pos buf len 0 hb) (Or.inl ⟨rfl, rfl, rfl, rfl⟩)
  · rw [if_neg hb, if_neg hb]
    simp [runTailLen]

/-- C8 amended: for every region whose first line is not itself ignorable
(not a comment line, not an empty line, not a "Conflicts:" marker),
ignore_non_trailer returns exactly the length of the maximal trailing run of
ignorable lines tracked per the reset rule — the spec-side trimmer.  Without
that hypothesis the functions differ: a run starting at offset 0 is conflated
with "no run" by the 0 sentinel of `boc` (see the counterexample). -/
theorem ignore_non_trailer_eq_spec (buf : Str) (len : Nat)
    (h : firstLineNotIgnorable buf = true) :
    ignore_non_trailer buf len = trailingIgnorableLen buf len := by
  unfold ignore_non_trailer trailingIgnorableLen
  exact ignoreAux_first_step buf len h len

/-- C8 witness: the region "a\n#\n" has a trailing comment line of length 2,
its first line is not ignorable, and both sides agree. -/
theorem c8_witness :
    ignore_non_trailer (("a\n#\n").toList) 4 = trailingIgnorableLen (("a\n#\n").toList) 4 :=
  ignore_non_trailer_eq_spec (("a\n#\n").toList) 4 (by decide)

/-- The last_line helper never reports past the scanned index. -/
theorem lastLineAux_le (buf : Str) : ∀ i, lastLineAux buf i ≤ i + 1 := by
  intro i
  induction i with
  | zero =>
    rw [lastLineAux]
    split
    · omega
    · omega
  | succ j ih =>
    rw [lastLineAux]
    split
    · omega
    · exact le_trans ih (by omega)

/-- The last_line helper reports a line start. -/
theorem lastLineAux_lineStart (buf : Str) : ∀ i, isLineStart buf (lastLineAux buf i) := by
  intro i
  induction i with
  | zero =>
    rw [lastLineAux]
    by_cases h : buf.getD 0 ' ' = '\n'
    · rw [if_pos h]
      exact Or.inr ⟨by omega, by simpa using h⟩
    · rw [if_neg h]
      exact Or.inl rfl
  | succ j ih =>
    rw [lastLineAux]
    by_cases h : buf.getD (j + 1) ' ' = '\n'
    · rw [if_pos h]
      exact Or.inr ⟨by omega, by simpa using h⟩
    · rw [if_neg h]
      exact ih

/-- The last_line helper reports the greatest line start at or below i+1. -/
theorem lastLineAux_ge (buf : Str) :
    ∀ i m, isLineStart buf m → m ≤ i + 1 → m ≤ lastLineAux buf i := by
  intro i
  induction i with
  | zero =>
    intro m hm hle
    rw [lastLineAux]
    rcases hm with h0 | ⟨h1, hnl⟩
    · split <;> omega
    · have hm1 : m = 1 := by omega
      subst hm1
      simp only [Nat.sub_self] at hnl
      rw [if_pos hnl]
  | succ j ih =>
    intro m hm hle
    rw [lastLineAux]
    by_cases h : buf.getD (j + 1) ' ' = '\n'
    · rw [if_pos h]
      omega
    · rw [if_neg h]
      apply ih m hm
      rcases hm with h0 | ⟨h1, hnl⟩
      · omega
      · by_contra hgt
        have hm2 : m = j + 2 := by omega
        subst hm2
        rw [show j + 2 - 1 = j + 1 from rfl] at hnl
        exact h hnl

/-- last_line reports strictly before the region end. -/
theorem last_line_lt (buf : Str) (l v : Nat) (h : last_line buf l = some v) : v < l := by
  by_cases h0 : l = 0
  · rw [last_line, if_pos h0] at h
    exact Option.noConfusion h
  · by_cases h1 : l = 1
    · rw [last_line, if_neg h0, if_pos h1] at h
      injection h with h'
      omega
    · rw [last_line, if_neg h0, if_neg h1] at h
      injection h with h'
      have := lastLineAux_le buf (l - 2)
      omega

/-- last_line reports a line start. -/
theorem last_line_lineStart (buf : Str) (l v : Nat) (h : last_line buf l = some v) :
    isLineStart buf v := by
  by_cases h0 : l = 0
  · rw [last_line, if_pos h0] at h
    exact Option.noConfusion h
  · by_cases h1 : l = 1
    · rw [last_line, if_neg h0, if_pos h1] at h
      injection h with h'
      rw [← h']
      exact Or.inl rfl
    · rw [last_line, if_neg h0, if_neg h1] at h
      injection h with h'
      rw [← h']
      exact lastLineAux_lineStart buf (l - 2)

/-- last_line skips no line start below the region end. -/
theorem last_line_ge (buf : Str) (l v : Nat) (h : last_line buf l = some v) :
    ∀ m, isLineStart buf m → m < l → m ≤ v := by
  intro m hm hml
  by_cases h0 : l = 0
  · omega
  · by_cases h1 : l = 1
    · rw [last_line, if_neg h0, if_pos h1] at h
      injection h with h'
      omega
    · rw [last_line, if_neg h0, if_neg h1] at h
      injection h with h'
      rw [← h']
      exact lastLineAux_ge buf (l - 2) m hm (by omega)

/-- last_line answers on every non-empty region. -/
theorem last_line_isSome (buf : Str) (l : Nat) (h : 1 ≤ l) :
    ∃ v, last_line buf l = some v := by
  by_cases h1 : l = 1
  · exact ⟨0, by rw [last_line, if_neg (by omega), if_pos h1]⟩
  · exact ⟨lastLineAux buf (l - 2), by rw [last_line, if_neg (by omega), if_neg h1]⟩

/-- Below a strictly later line start, last_line reaches at least that far. -/
theorem last_line_reaches (buf : Str) (eot l : Nat) (hls : isLineStart buf eot)
    (hlt : eot < l) : ∃ v, last_line buf l = some v ∧ eot ≤ v := by
  obtain ⟨v, hv⟩ := last_line_isSome buf l (by omega)
  exact ⟨v, hv, last_line_ge buf l v hv eot hls hlt⟩

/-- A blank line never starts with the comment marker. -/
theorem blank_head_not_comment (s : Str) (h : is_blank_line s = true) :
    ¬ s.headD ' ' = commentLineChar := by
  cases s with
  | nil => simp [commentLineChar]
  | cons c rest =>
    rw [is_blank_line] at h
    by_cases hc : c = '\n'
    · simp [hc, commentLineChar]
    · rw [if_neg hc] at h
      by_cases hs : isSpaceC c = true
      · intro hh
        simp only [List.headD_cons] at hh
        rw [hh] at hs
        exact absurd hs (by decide)
      · rw [if_neg hs] at h
        exact absurd h (by simp)

/-- The title scan ends at or past the region end, or at a blank line start
inside the region. -/
theorem eotAux_post (buf : Str) (len : Nat) (hlen : len ≤ buf.length) :
    ∀ (fuel s : Nat), len - s < fuel → (isLineStart buf s ∨ len ≤ s) →
      len ≤ eotAux buf len fuel s ∨
        (eotAux buf len fuel s < len ∧ isLineStart buf (eotAux buf len fuel s) ∧
          is_blank_line (buf.drop (eotAux buf len fuel s)) = true) := by
  intro fuel
  induction fuel with
  | zero => intro s hf _; exact absurd hf (by omega)
  | succ n ih =>
    intro s hf hs
    rw [eotAux]
    by_cases hlt : s < len
    · have hs' : isLineStart buf s := by
        rcases hs with h | h
        · exact h
        · omega
      have hnext : s < nextLinePos buf s := nextLinePos_gt buf s (by omega)
      have hstep : len - nextLinePos buf s < n := by omega
      have hinv : isLineStart buf (nextLinePos buf s) ∨ len ≤ nextLinePos buf s := by
        rcases nextLinePos_lineStart buf s with h | h
        · exact Or.inl h
        · right
          omega
      rw [if_pos hlt]
      by_cases hc : buf.getD s ' ' = commentLineChar
      · rw [if_pos hc]
        exact ih (nextLinePos buf s) hstep hinv
      · rw [if_neg hc]
        by_cases hbl : is_blank_line (buf.drop s) = true
        · rw [if_pos hbl]
          exact Or.inr ⟨hlt, hs', hbl⟩
        · rw [if_neg hbl]
          exact ih (nextLinePos buf s) hstep hinv
    · rw [if_neg hlt]
      left
      omega

/-- The backward scans of find_trailer_start and its spec-side locator agree.
The invariants carried through the loop: the cursor is a line start inside the
region; while only blank lines were seen, no trailer line or recognized
marker was counted; and once a non-blank line was seen, the cursor sits at or
past titleEnd — whose line is blank, so the scan takes the blank-line decision
before dropping below it.  Hence whenever the loop exits without a decision,
both acceptance conditions are false and the spec-side locator also reports
no trailer block. -/
theorem ftsScan_eq_spec (buf : Str) (len eot : Nat)
    (H : len ≤ eot ∨ (eot < len ∧ isLineStart buf eot ∧ is_blank_line (buf.drop eot) = true)) :
    ∀ (fuel : Nat) (l? : Option Nat) (st : ScanSt),
      (∀ l, l? = some l → isLineStart buf l ∧ l < len) →
      (st.onlySpaces = true → st.trailerLines = 0 ∧ st.recognizedMarker = false) →
      (st.onlySpaces = false → ∃ l, l? = some l ∧ eot ≤ l) →
      ftsScan buf len eot fuel l? st = ftsScanSpec buf len eot fuel l? st := by
  intro fuel
  induction fuel with
  | zero => intro l? st _ _ _; rfl
  | succ n ih =>
    intro l? st hI3 hI1 hI2
    cases l? with
    | none =>
      have hos : st.onlySpaces = true := by
        cases hq : st.onlySpaces
        · obtain ⟨l, hl, _⟩ := hI2 hq
          exact Option.noConfusion hl
        · rfl
      obtain ⟨ht, hr⟩ := hI1 hos
      simp [ftsScan, ftsScanSpec, acceptCond, ht, hr]
    | some l =>
      by_cases hlt : l < eot
      · have hos : st.onlySpaces = true := by
          cases hq : st.onlySpaces
          · obtain ⟨l', hl', hle⟩ := hI2 hq
            injection hl' with h'
            omega
          · rfl
        obtain ⟨ht, hr⟩ := hI1 hos
        simp [ftsScan, ftsScanSpec, acceptCond, ht, hr, hlt]
      · obtain ⟨hls, hllen⟩ := hI3 l rfl
        have hge : eot ≤ l := by omega
        have Hr : eot < len ∧ isLineStart buf eot ∧ is_blank_line (buf.drop eot) = true := by
          rcases H with h | h
          · omega
          · exact h
        obtain ⟨Helt, Hels, Hebl⟩ := Hr
        have hI3' : ∀ l', some l = some l' →
            ∀ v, last_line buf l' = some v → isLineStart buf v ∧ v < len := by
          intro l' hl' v hv
          injection hl' with h'
          subst h'
          exact ⟨last_line_lineStart buf l v hv,
            lt_trans (last_line_lt buf l v hv) hllen⟩
        have hI3n : ∀ v, last_line buf l = some v → isLineStart buf v ∧ v < len :=
          hI3' l rfl
        have hreach : eot < l → ∃ v, last_line buf l = some v ∧ eot ≤ v :=
          last_line_reaches buf eot l Hels
        simp only [ftsScan, ftsScanSpec]
        rw [if_neg hlt, if_neg hlt]
        by_cases hc : (buf.drop l).headD ' ' = commentLineChar
        · rw [if_pos hc, if_pos hc]
          apply ih
          · intro v hv
            exact hI3n v hv
          · intro hos'
            exact hI1 hos'
          · intro hos'
            refine hreach ?_
            rcases Nat.lt_or_ge eot l with hx | hx
            · exact hx
            · exfalso
              have hleq : l = eot := by omega
              rw [hleq] at hc
              exact absurd hc (blank_head_not_comment _ Hebl)
        · rw [if_neg hc, if_neg hc]
          by_cases hbl : is_blank_line (buf.drop l) = true
          · rw [if_pos hbl, if_pos hbl]
            by_cases hos : st.onlySpaces = true
            · rw [if_pos hos, if_pos hos]
              apply ih
              · intro v hv
                exact hI3n v hv
              · exact hI1
              · intro hos'
                rw [hos] at hos'
                exact absurd hos' (by simp)
            · rw [if_neg hos, if_neg hos]
              have hAcc : acceptCond st =
                  ((st.recognizedMarker &&
                      decide (st.nonTrailerLines + st.possibleContinuationLines ≤
                        st.trailerLines * 3)) ||
                    (decide (0 < st.trailerLines) &&
                      decide (st.nonTrailerLines + st.possibleContinuationLines = 0))) := rfl
              rw [hAcc]
              by_cases hA : (st.recognizedMarker &&
                  decide (st.nonTrailerLines + st.possibleContinuationLines ≤
                    st.trailerLines * 3)) = true
              · rw [if_pos hA, if_pos (by rw [hA]; simp)]
              · rw [if_neg hA]
                by_cases hB : (decide (0 < st.trailerLines) &&
                    decide (st.nonTrailerLines + st.possibleContinuationLines = 0)) = true
                · rw [if_pos hB, if_pos (by rw [hB]; simp)]
                · rw [if_neg hB,
                    if_neg (by rw [Bool.or_eq_true]; rintro (h | h); exacts [hA h, hB h])]
          · rw [if_neg hbl, if_neg hbl]
            have hne : eot < l := by
              rcases Nat.lt_or_ge eot l with hx | hx
              · exact hx
              · exfalso
                have hleq : l = eot := by omega
                rw [hleq] at hbl
                exact absurd Hebl hbl
            by_cases hpm : gitGeneratedMarkers.any (fun p => p.isPrefixOf (buf.drop l)) = true
            · rw [if_pos hpm, if_pos hpm]
              apply ih
              · intro v hv
                exact hI3n v hv
              · intro hos'
                simp at hos'
              · intro _
                exact hreach hne
            · rw [if_neg hpm, if_neg hpm]
              by_cases hsep : (decide (1 ≤ (find_separator (buf.drop l) trailerSeparators).getD 0) &&
                  !isSpaceC ((buf.drop l).headD ' ')) = true
              · rw [if_pos hsep, if_pos hsep]
                apply ih
                · intro v hv
                  exact hI3n v hv
                · intro hos'
                  simp at hos'
                · intro _
                  exact hreach hne
              · rw [if_neg hsep, if_neg hsep]
                by_cases hsp : isSpaceC ((buf.drop l).headD ' ') = true
                · rw [if_pos hsp, if_pos hsp]
                  apply ih
                  · intro v hv
                    exact hI3n v hv
                  · intro hos'
                    simp at hos'
                  · intro _
                    exact hreach hne
                · rw [if_neg hsp, if_neg hsp]
                  apply ih
                  · intro v hv
                    exact hI3n v hv
                  · intro hos'
                    simp at hos'
                  · intro _
                    exact hreach hne

/-- C1: for every trimmed region, find_trailer_start agrees everywhere with
the spec-side locator that applies the dual acceptance rule both at the
qualifying blank line and when the backward scan reaches titleEnd without
meeting one. -/
theorem find_trailer_start_eq_spec (buf : Str) (len : Nat) (hlen : len ≤ buf.length) :
    find_trailer_start buf len = findTrailerStartSpec buf len := by
  unfold find_trailer_start findTrailerStartSpec
  have H : len ≤ endOfTitle buf len ∨
      (endOfTitle buf len < len ∧ isLineStart buf (endOfTitle buf len) ∧
        is_blank_line (buf.drop (endOfTitle buf len)) = true) := by
    rcases eotAux_post buf len hlen (len + 1) 0 (by omega) (Or.inl (Or.inl rfl)) with h | h
    · exact Or.inl h
    · exact Or.inr h
  apply ftsScan_eq_spec buf len (endOfTitle buf len) H
  · intro l hl
    exact ⟨last_line_lineStart buf len l hl, last_line_lt buf len l hl⟩
  · intro _
    exact ⟨rfl, rfl⟩
  · intro hos
    exact absurd hos (by simp [scanInit])

/-- C1 witness: on the region "Subject\n\nA: b\n" of length 14 both locators
agree (both place the trailer start at offset 9). -/
theorem c1_witness :
    find_trailer_start (("Subject\n\nA: b\n").toList) 14 =
      findTrailerStartSpec (("Subject\n\nA: b\n").toList) 14 :=
  find_trailer_start_eq_spec (("Subject\n\nA: b\n").toList) 14 (by decide)

/-- Boundary fact for re-extraction: the empty-block hypothesis is sufficient
but not necessary for idempotence.  A message whose block is a single
recognized cherry-pick line has a non-empty block, yet both the original run
and the re-fed run emit the empty sequence (the tokenizer skips the '('
line), so the two runs also agree there. -/
theorem reextraction_agrees_on_cherry_pick_block :
    extract_trailer_block ("Subject\n\n(cherry picked from commit abc)\n").toList ≠ [] ∧
      messageTrailerPairs
          (extract_trailer_block ("Subject\n\n(cherry picked from commit abc)\n").toList) =
        messageTrailerPairs ("Subject\n\n(cherry picked from commit abc)\n").toList := by
  constructor
  · decide
  · decide

/-- Boundary fact for the trimmer sentinel: only the first tracked run start
is lost to the boc = 0 sentinel.  On "#\n#\n" the run restarts at the second
comment line, so the trimmer returns 2 — neither 0 nor the full
ignorable-run length 4. -/
theorem trimmer_restarts_run_after_offset_zero :
    ignore_non_trailer (("#\n#\n").toList) 4 = 2 ∧
      trailingIgnorableLen (("#\n#\n").toList) 4 = 4 := by
  constructor
  · decide
  · decide
